import Mathlib

/-!
# Verification of the schema-driven data pipeline

A shallow embedding of the core of the `dataEntry` repository:

* the row validator/normalizer and the bulk import pipeline of
  `src/pages/DataEntry.tsx` (`handleSubmit`, `handleFileUpload`);
* the aggregation engine (`chartData`) and the viewport controller
  (`handleWheel`, `handleMouseMove`, `resetZoom`) of the analysis page.

JavaScript numbers are modelled as rationals (`ℚ`); all arithmetic in the
transforms stays exact for the inputs the program produces, so no floating
point rounding is modelled.  Fallible or heterogeneous JavaScript values are
modelled by the `JsVal` sum type below.
-/

/-- The dynamic field types of a form (`FormField.type` in both
`DataEntry.tsx` and the analysis page). -/
inductive FieldType where
  | text
  | number
  | date
  | time
  | decimal
  | dropdown
deriving DecidableEq

/-- A JavaScript runtime value as manipulated by the pipeline.
`date t` models a JS `Date` object, with `t` the instant expressed in
minutes on the environment's local clock (instants before the epoch are not
needed by any claim and are not modelled).  JS `NaN` never survives in the
pipeline: every `Number(x)` result is immediately defaulted through
`|| 0`, which is modelled in `toNum`. -/
inductive JsVal where
  | str (s : String)
  | num (q : ℚ)
  | bool (b : Bool)
  | null
  | undefined
  | date (t : ℕ)
deriving DecidableEq

/-- A row object: an insertion-ordered mapping from field names to values
(keys are unique in every row the program builds). -/
def Row := List (String × JsVal)

instance : DecidableEq Row := by unfold Row; infer_instance

/-- Property read `row[k]`: a missing property yields `undefined`. -/
def getJs (row : Row) (k : String) : JsVal :=
  match row.lookup k with
  | some v => v
  | none => JsVal.undefined

/-- Property write `row[k] = v` (replaces the binding, adds it if absent). -/
def setJs : Row → String → JsVal → Row
  | [], k, v => [(k, v)]
  | (k', v') :: r, k, v => if k' = k then (k, v) :: r else (k', v') :: setJs r k v

/-- JavaScript truthiness test (negated): `!x` is true exactly on the falsy
values `undefined`, `null`, `""`, `0`, `false` (and `NaN`, which `JsVal`
cannot carry; a `Date` object is always truthy). -/
def falsy : JsVal → Bool
  | JsVal.str s => s = ""
  | JsVal.num q => q = 0
  | JsVal.bool b => !b
  | JsVal.null => true
  | JsVal.undefined => true
  | JsVal.date _ => false

/-- Decimal string to number, the fragment of JS `Number(string)` exercised
by this program: optional sign, digits, optional fractional part, and the
whitespace-only strings that parse to `0`.  Exotic literals (hex, exponent)
are not produced by any caller and are not modelled. -/
def parseDigits : List Char → Option ℕ
  | [] => none
  | cs =>
    if cs.all Char.isDigit then
      some (cs.foldl (fun n c => 10 * n + (c.toNat - 48)) 0)
    else none

/-- Parse an unsigned decimal literal `digits[.digits]`, `.digits` or
`digits.` into a rational. -/
def parseUnsigned (s : String) : Option ℚ :=
  match s.splitOn "." with
  | [w] => (parseDigits w.toList).map (fun n => (n : ℚ))
  | [w, f] =>
    if w = "" ∧ f = "" then none
    else if w = "" then
      (parseDigits f.toList).map (fun n => (n : ℚ) / (10 : ℚ) ^ f.length)
    else if f = "" then
      (parseDigits w.toList).map (fun n => (n : ℚ))
    else
      match parseDigits w.toList, parseDigits f.toList with
      | some a, some b => some ((a : ℚ) + (b : ℚ) / (10 : ℚ) ^ f.length)
      | _, _ => none
  | _ => none

/-- JS `Number(string)`: `none` models `NaN`. -/
def parseNumber (s : String) : Option ℚ :=
  let t := s.trim
  if t = "" then some 0
  else if t.startsWith "-" then (parseUnsigned (t.drop 1)).map (fun q => -q)
  else if t.startsWith "+" then parseUnsigned (t.drop 1)
  else parseUnsigned t

/-- JS `Number(x)` on a runtime value; `none` models `NaN`.
`Number(Date)` is the epoch millisecond count of the instant. -/
def jsToNumber : JsVal → Option ℚ
  | JsVal.num q => some q
  | JsVal.str s => parseNumber s
  | JsVal.bool b => some (if b then 1 else 0)
  | JsVal.null => some 0
  | JsVal.undefined => none
  | JsVal.date t => some ((t : ℚ) * 60000)

/-- The numeric coercion used throughout the aggregation engine and
the import pipeline: `Number(x) || 0` (`NaN` collapses to `0`; a genuine `0`
stays `0`). -/
def toNum (v : JsVal) : ℚ :=
  match jsToNumber v with
  | some q => q
  | none => 0

/-- `String(x).padStart(2, "0")` for the small naturals produced by the
date/time formatters. -/
def pad2 (n : ℕ) : String :=
  if n < 10 then "0" ++ toString n else toString n

/-- Proleptic-Gregorian civil date from a day count since 1970-01-01
(the standard era-based algorithm; days are non-negative here). -/
def civilFromDays (days : ℕ) : ℕ × ℕ × ℕ :=
  let z := days + 719468
  let era := z / 146097
  let doe := z % 146097
  let yoe := (doe - doe / 1460 + doe / 36524 - doe / 146097) / 365
  let y := yoe + era * 400
  let doy := doe - (365 * yoe + yoe / 4 - yoe / 100)
  let mp := (5 * doy + 2) / 153
  let d := doy - (153 * mp + 2) / 5 + 1
  let m := if mp < 10 then mp + 3 else mp - 9
  (if m ≤ 2 then y + 1 else y, m, d)

/-- The `YYYY-MM-DD` rendering of `date`-typed cells
(`getFullYear`/`getMonth`/`getDate`, zero padded, DataEntry.tsx:208-211). -/
def formatDateYMD (t : ℕ) : String :=
  match civilFromDays (t / 1440) with
  | (y, m, d) => toString y ++ "-" ++ pad2 m ++ "-" ++ pad2 d

/-- The `HH:MM` rendering of `time`-typed cells
(`getHours`/`getMinutes`, zero padded, DataEntry.tsx:221-223). -/
def formatTimeHM (t : ℕ) : String :=
  pad2 (t / 60 % 24) ++ ":" ++ pad2 (t % 60)

/-- One field's date/time normalization step of the bulk import
(DataEntry.tsx:199-224), applied when the raw cell value is a `Date`
object.

The source first executes `dateVal.setHours(dateVal.getHours() + 12)`,
which advances the shared `Date` object by 12 hours **in place**.
`processedRow` is built by `{ ...row }`, a shallow copy, so
`processedRow[field.name]` and `row[field.name]` alias the same object:
the later re-read `const originalDate = row[field.name]` in the `time`
branch therefore observes the already-shifted instant, not the original
one.  A `Date` value sitting in a field of any other type is left as the
(mutated) object. -/
def normalizeDateCell (ftype : FieldType) (t : ℕ) : JsVal :=
  let shifted := t + 720
  match ftype with
  | FieldType.date => JsVal.str (formatDateYMD shifted)
  | FieldType.time => JsVal.str (formatTimeHM shifted)
  | _ => JsVal.date shifted

/-- A field of a form schema. -/
structure FormField where
  id : String
  name : String
  type : FieldType
  required : Bool
  options : List String
deriving DecidableEq

/-- A form schema. -/
structure FormSchema where
  id : String
  name : String
  fields : List FormField
deriving DecidableEq

/-- The per-row date/time normalization loop of the bulk import
(`selectedForm.fields.forEach(...)`, DataEntry.tsx:198-226): each field
whose current value is a `Date` object is replaced by its normalized
value. -/
def normalizeRow (fields : List FormField) (row : Row) : Row :=
  fields.foldl
    (fun processed f =>
      match getJs processed f.name with
      | JsVal.date t => setJs processed f.name (normalizeDateCell f.type t)
      | _ => processed)
    row

/-- The bulk-import required-field check (DataEntry.tsx:228): a required
field fails when its value is strictly `undefined`, `null` or `""`. -/
def isMissingValue : JsVal → Bool
  | JsVal.undefined => true
  | JsVal.null => true
  | JsVal.str s => s = ""
  | _ => false

/-- `missingRequired` of the bulk-import path (DataEntry.tsx:228), checked
on the row after date/time normalization. -/
def bulkMissingRequired (fields : List FormField) (row : Row) : Bool :=
  fields.any fun f => f.required && isMissingValue (getJs row f.name)

/-- `missingRequired` of the manual-entry path (DataEntry.tsx:101):
`f.required && !formData[f.name]` — JS truthiness, so any falsy value
(including the number `0` and `false`) counts as missing. -/
def manualMissingRequired (fields : List FormField) (formData : Row) : Bool :=
  fields.any fun f => f.required && falsy (getJs formData f.name)

/-- The predicate the specification states for the required-field check:
some field marked required has a value that is absent (`undefined`),
`null`, or the empty string.  Stated from the spec's words, for comparison
with the two checks the code performs. -/
def specMissingRequired (fields : List FormField) (row : Row) : Bool :=
  fields.any fun f =>
    f.required &&
      (getJs row f.name == JsVal.undefined || getJs row f.name == JsVal.null ||
        getJs row f.name == JsVal.str "")

/-- The fixed batch width of the bulk import (DataEntry.tsx:189). -/
def batchSize : ℕ := 400

/-- Fuel-indexed body of `toBatches`; the fuel is bounded by the list
length so the recursion is structural and the kernel can evaluate it. -/
def toBatchesAux : ℕ → List Row → List (List Row)
  | _, [] => []
  | 0, l => [l]
  | fuel + 1, x :: xs => ((x :: xs).take batchSize) :: toBatchesAux fuel ((x :: xs).drop batchSize)

/-- The batching loop of the bulk import (DataEntry.tsx:190-191):
`for (let i = 0; i < data.length; i += batchSize) chunk = data.slice(i, i + batchSize)`. -/
def toBatches (rows : List Row) : List (List Row) :=
  toBatchesAux rows.length rows

/-- A stored submission document (the fields written by `addDoc`,
DataEntry.tsx:235-241; the server timestamp is opaque and omitted). -/
structure SubmissionDoc where
  formId : String
  formName : String
  data : Row
  submittedBy : String
deriving DecidableEq

/-- Outcome of processing one bulk-import row: validation failure, or a
stored submission.  The store write is modelled as succeeding; a store-side
failure also increments `errorCount` in the source but no claim concerns
it. -/
inductive RowOutcome where
  | invalid
  | stored (docu : SubmissionDoc)
deriving DecidableEq

/-- Per-row processing of the bulk import (DataEntry.tsx:193-250):
normalize date/time cells, check required fields, then persist. -/
def processRow (form : FormSchema) (uid : String) (row : Row) : RowOutcome :=
  let processed := normalizeRow form.fields row
  if bulkMissingRequired form.fields processed then RowOutcome.invalid
  else RowOutcome.stored ⟨form.id, form.name, processed, uid⟩

/-- Aggregation of the `successCount` / `errorCount` accumulators over the
row outcomes (DataEntry.tsx:186-187, 231, 245, 248). -/
def importCounts (outs : List RowOutcome) : ℕ × ℕ :=
  outs.foldl
    (fun acc o =>
      match o with
      | RowOutcome.invalid => (acc.1, acc.2 + 1)
      | RowOutcome.stored _ => (acc.1 + 1, acc.2))
    (0, 0)

/-- The submissions actually written to the store during an import. -/
def storedDocs (outs : List RowOutcome) : List SubmissionDoc :=
  outs.filterMap fun o =>
    match o with
    | RowOutcome.stored d => some d
    | RowOutcome.invalid => none

/-- Result of a bulk import: the empty-file fast path, or the final
report together with the documents written. -/
inductive ImportResult where
  | emptyImport
  | report (successCount errorCount : ℕ) (written : List SubmissionDoc)
deriving DecidableEq

/-- The bulk import pipeline (`handleFileUpload`'s `reader.onload` body,
DataEntry.tsx:180-253): fail fast on an empty sheet, otherwise process the
rows batch by batch.  All row processing is pure here, so the
batch-sequential / row-parallel schedule of the source reduces to the
same ordered list of outcomes. -/
def bulkImport (form : FormSchema) (uid : String) (rows : List Row) : ImportResult :=
  if rows.isEmpty then ImportResult.emptyImport
  else
    let outs := ((toBatches rows).map (fun chunk => chunk.map (processRow form uid))).flatten
    ImportResult.report (importCounts outs).1 (importCounts outs).2 (storedDocs outs)

/-! ## Aggregation engine (`chartData`, analysis page) -/

/-- The eight chart types of `ChartConfig.type`. -/
inductive ChartType where
  | column
  | bar
  | line
  | area
  | combo
  | scatter
  | histogram
  | pareto
deriving DecidableEq

/-- The chart configuration. -/
structure ChartConfig where
  type : ChartType
  xAxis : String
  yAxis : String
  secondaryYAxis : Option String
  groupBy : Option String
  target : Option ℚ
deriving DecidableEq

/-- A submission document as read by the aggregation engine; only its
`data` map is consumed by the transforms, the metadata fields are never
inspected. -/
structure Submission where
  data : Row
deriving DecidableEq

/-- One histogram bin (the engine's bin object).  `stop` embeds the
source's `end` field, which is a reserved word in Lean; the presentational
`range` label string (`"start - end"` with `toFixed(1)`) is derived from
`start`/`stop` in the UI layer and carries no information used by any
claim, so it is not modelled. -/
structure Bin where
  count : ℕ
  start : ℚ
  stop : ℚ
  target : Option ℚ
deriving DecidableEq

/-- The number of histogram bins (`binCount = 10`). -/
def binCount : ℕ := 10

/-- `bins = Array.from({length: binCount}, (_, i) => ...)`: bin `i` spans
`[min + i*binSize, min + i*binSize + binSize)` and starts with count 0. -/
def mkBins (mn binSize : ℚ) (target : Option ℚ) : List Bin :=
  (List.range binCount).map fun (i : ℕ) =>
    { count := 0
      start := mn + (i : ℚ) * binSize
      stop := mn + (i : ℚ) * binSize + binSize
      target := target }

/-- `bins.find(b => v >= b.start && v < b.end)`, as the index of the first
matching bin. -/
def findBinIdx (v : ℚ) : List Bin → Option ℕ
  | [] => none
  | b :: bs =>
    if b.start ≤ v ∧ v < b.stop then some 0
    else (findBinIdx v bs).map (· + 1)

/-- Index of the bin a value is assigned to: the first bin with
`start <= v < end`, or the last bin as fallback
(`... || bins[bins.length - 1]`). -/
def binIndexOf (bins : List Bin) (v : ℚ) : ℕ :=
  match findBinIdx v bins with
  | some i => i
  | none => bins.length - 1

/-- `bin.count++` at a position (out-of-range indices leave the list
unchanged; `binIndexOf` never produces one on a non-empty list). -/
def incAt : List Bin → ℕ → List Bin
  | [], _ => []
  | b :: bs, 0 => { b with count := b.count + 1 } :: bs
  | b :: bs, n + 1 => b :: incAt bs n

/-- The counting loop `values.forEach(v => { ...bin.count++ })`. -/
def fillBins (bins : List Bin) (values : List ℚ) : List Bin :=
  values.foldl (fun bs v => incAt bs (binIndexOf bs v)) bins

/-- `values[0]` after the ascending sort: the minimum of the series
(`0` as a junk default on the empty list, which the engine guards
against). -/
def histMin (values : List ℚ) : ℚ :=
  (List.insertionSort (· ≤ ·) values).headD 0

/-- `values[values.length - 1]` after the ascending sort: the maximum. -/
def histMax (values : List ℚ) : ℚ :=
  (List.insertionSort (· ≤ ·) values).getLastD 0

/-- `const binSize = (max - min) / binCount || 1`: the `|| 1` replaces a
zero width (the `max == min` degenerate case) by `1`. -/
def histBinSize (values : List ℚ) : ℚ :=
  if (histMax values - histMin values) / (binCount : ℚ) = 0 then 1
  else (histMax values - histMin values) / (binCount : ℚ)

/-- The histogram transform on the extracted numeric series
(analysis page, `chartData` histogram branch): sort ascending
(`.sort((a,b) => a - b)`, modelled by `insertionSort`, which produces the
same sorted sequence of rationals), build 10 equal-width bins from
min/max, then count every value into its bin. -/
def histogramBins (values : List ℚ) (target : Option ℚ) : List Bin :=
  if values.length = 0 then []
  else
    fillBins (mkBins (histMin values) (histBinSize values) target)
      (List.insertionSort (· ≤ ·) values)

/-- One Pareto point. -/
structure ParetoPoint where
  name : String
  value : ℚ
  cumulativePercentage : ℤ
  target : Option ℚ
deriving DecidableEq

/-- Rendering `String(x)` of the values that can appear as Pareto group
keys.  Strings, booleans, `null` and `undefined` follow JS exactly;
integral numbers render as their decimal digits.  Non-integral numbers and
`Date` objects are rendered canonically rather than in JS's
shortest-round-trip / locale forms — no claim exercises those. -/
def jsToString : JsVal → String
  | JsVal.str s => s
  | JsVal.num q =>
    if q.den = 1 then
      (if q.num < 0 then "-" ++ toString q.num.natAbs else toString q.num.natAbs)
    else toString q
  | JsVal.bool b => if b then "true" else "false"
  | JsVal.null => "null"
  | JsVal.undefined => "undefined"
  | JsVal.date t => formatDateYMD t ++ " " ++ formatTimeHM t

/-- The Pareto group key `String(sub.data[config.xAxis] || 'Unknown')`:
`x || 'Unknown'` yields `'Unknown'` for every falsy `x`. -/
def paretoKey (v : JsVal) : String :=
  jsToString (if falsy v then JsVal.str "Unknown" else v)

/-- `grouped[key] = (grouped[key] || 0) + val` over an insertion-ordered
record: add to the existing group or append a new one.  (For keys that are
array-index strings, JS enumerates them before the others; no claim
depends on the enumeration order of such keys.) -/
def upsert : List (String × ℚ) → String → ℚ → List (String × ℚ)
  | [], k, v => [(k, v)]
  | (k', v') :: r, k, v =>
    if k' = k then (k', v' + v) :: r else (k', v') :: upsert r k v

/-- The grouping pass of the Pareto transform. -/
def groupedPairs (subs : List Submission) (xAxis yAxis : String) : List (String × ℚ) :=
  subs.foldl
    (fun acc sub =>
      upsert acc (paretoKey (getJs sub.data xAxis)) (toNum (getJs sub.data yAxis)))
    []

/-- Stable insertion of one pair into a list sorted by value descending:
the pair goes in front of the first strictly smaller value, after all
earlier pairs with an equal or larger one. -/
def insertDesc (p : String × ℚ) : List (String × ℚ) → List (String × ℚ)
  | [] => [p]
  | q :: qs => if q.2 < p.2 then p :: q :: qs else q :: insertDesc p qs

/-- `.sort((a, b) => b.value - a.value)`: a stable descending sort by
summed value (`Array.prototype.sort` is stable), modelled by stable
insertion sort. -/
def sortDesc (l : List (String × ℚ)) : List (String × ℚ) :=
  l.foldl (fun acc p => insertDesc p acc) []

/-- `const total = sorted.reduce((sum, item) => sum + item.value, 0)`. -/
def paretoTotal (subs : List Submission) (xAxis yAxis : String) : ℚ :=
  ((sortDesc (groupedPairs subs xAxis yAxis)).map Prod.snd).sum

/-- The cumulative pass: `cumulative += item.value;
cumulativePercentage = Math.round(cumulative / total * 100)`.
JS `Math.round` is `⌊x + 1/2⌋`, which is Mathlib's `round`.  When
`total = 0` the source divides by zero and produces `NaN` percentages
(spec §7 flags this); rational division by zero yields `0` here, and
every theorem about percentages assumes `total ≠ 0`. -/
def paretoGo (total : ℚ) (target : Option ℚ) : ℚ → List (String × ℚ) → List ParetoPoint
  | _, [] => []
  | cum, (n, v) :: rest =>
    ⟨n, v, round ((cum + v) / total * 100), target⟩ :: paretoGo total target (cum + v) rest

/-- The Pareto transform (analysis page, `chartData` pareto branch). -/
def paretoPoints (subs : List Submission) (xAxis yAxis : String) (target : Option ℚ) :
    List ParetoPoint :=
  paretoGo (paretoTotal subs xAxis yAxis) target 0 (sortDesc (groupedPairs subs xAxis yAxis))

/-- One point of the chart-ready series.  The three branches of `chartData`
produce differently-shaped objects; `row` is the default/series shape
`{...sub.data, index, [yAxis]: coerced, target}` with the overwritten
`yAxis` value carried in `yVal`. -/
inductive ChartPoint where
  | bin (b : Bin)
  | pareto (p : ParetoPoint)
  | row (data : Row) (index : ℕ) (yVal : ℚ) (target : Option ℚ)
deriving DecidableEq

/-- The aggregation engine `chartData` (analysis page, lines 135-202):
empty unless submissions are present **and both axes are set** (the guard
applies to every chart type, histogram and pareto included); then one of
the histogram / pareto / passthrough transforms. -/
def chartData (submissions : List Submission) (config : ChartConfig) : List ChartPoint :=
  if submissions = [] ∨ config.xAxis = "" ∨ config.yAxis = "" then []
  else if config.type = ChartType.histogram then
    (histogramBins (submissions.map fun s => toNum (getJs s.data config.yAxis)) config.target).map
      ChartPoint.bin
  else if config.type = ChartType.pareto then
    (paretoPoints submissions config.xAxis config.yAxis config.target).map ChartPoint.pareto
  else
    submissions.enum.map fun p =>
      ChartPoint.row p.2.data (p.1 + 1) (toNum (getJs p.2.data config.yAxis)) config.target

/-! ## Viewport controller (zoom / pan) -/

/-- One endpoint of the interactive Y domain: `'auto'` or an explicit
number. -/
inductive YBound where
  | auto
  | val (y : ℚ)
deriving DecidableEq

/-- The `yDomain` state.  Its source type is
`[number | 'auto', number | 'auto']`, but every write to the lower
endpoint stores a number (`0` initially and on reset, `currentMin` on
zoom, a shifted number on pan), so `lo` is modelled as a rational. -/
structure YDomain where
  lo : ℚ
  hi : YBound
deriving DecidableEq

/-- The initial and reset viewport `[0, 'auto']` (`resetZoom`). -/
def resetZoom : YDomain := ⟨0, YBound.auto⟩

/-- `Math.max(...)` over the series the wheel handler reads from the chart
data (`chartData.map(d => Number(d[config.yAxis]) || 0)`); the `0` default
on the empty list is never used, as the handler returns early then. -/
def maxD : List ℚ → ℚ
  | [] => 0
  | x :: xs => xs.foldl max x

/-- The zoom handler `handleWheel` (analysis page, lines 206-225) over the
extracted data series `dataVals`: 10% in or out per tick, the new range
clamped to `max(dataValues) * 1.1`, anchored at the current minimum. -/
def handleWheel (dataVals : List ℚ) (deltaY : ℚ) (d : YDomain) : YDomain :=
  if dataVals.isEmpty then d
  else
    let currentMax :=
      match d.hi with
      | YBound.auto => maxD dataVals * (11 / 10)
      | YBound.val v => v
    let range := currentMax - d.lo
    let zoomFactor : ℚ := if 0 < deltaY then 1 / 10 else -(1 / 10)
    let newRange := range * (1 + zoomFactor)
    let maxDataValue := maxD dataVals * (11 / 10)
    let finalRange := min newRange maxDataValue
    ⟨d.lo, YBound.val (d.lo + finalRange)⟩

/-- The pan handler `handleMouseMove` (analysis page, lines 232-247):
while dragging and once the domain is explicit, shift both endpoints by
`(lastY - clientY) * range * 0.002` and remember the pointer position;
a no-op (pointer position included) while `yMax` is `'auto'` or not
dragging.  Returns the new domain together with the new `lastY` ref. -/
def handleMouseMove (isDragging : Bool) (clientY lastY : ℚ) (d : YDomain) : YDomain × ℚ :=
  if isDragging then
    match d.hi with
    | YBound.auto => (d, lastY)
    | YBound.val vmax =>
      let delta := lastY - clientY
      let range := vmax - d.lo
      let factor := range * (2 / 1000)
      let shift := delta * factor
      (⟨d.lo + shift, YBound.val (vmax + shift)⟩, clientY)
  else (d, lastY)

/-- The span (start, stop) of a bin; `incAt` only touches counts, so
spans are invariant through the counting loop. -/
def binSpan (b : Bin) : ℚ × ℚ := (b.start, b.stop)

/-- The `count` series of a chart-point list (what the histogram chart
renders as the `count` data key); non-bin points contribute `0`. -/
def binCounts (pts : List ChartPoint) : List ℕ :=
  pts.map fun p =>
    match p with
    | ChartPoint.bin b => b.count
    | _ => 0

/-! ## Batching lemmas (bulk import) -/

/-- The fuel argument of `toBatchesAux` is irrelevant as long as it covers
the list length. -/
theorem toBatchesAux_congr :
    ∀ (fuel₁ fuel₂ : ℕ) (l : List Row), l.length ≤ fuel₁ → l.length ≤ fuel₂ →
      toBatchesAux fuel₁ l = toBatchesAux fuel₂ l := by
  intro fuel₁
  induction fuel₁ with
  | zero =>
    intro fuel₂ l h₁ _
    have : l = [] := List.eq_nil_of_length_eq_zero (Nat.le_zero.mp h₁)
    subst this
    cases fuel₂ <;> rfl
  | succ fuel ih =>
    intro fuel₂ l h₁ h₂
    cases l with
    | nil => cases fuel₂ <;> rfl
    | cons x xs =>
      cases fuel₂ with
      | zero => simp at h₂
      | succ g =>
        simp only [toBatchesAux]
        congr 1
        have hd : ((x :: xs).drop batchSize).length ≤ xs.length := by
          simp [batchSize]
        exact ih g _ (by simp at h₁; omega) (by simp at h₂; omega)

/-- Unfolding equation for `toBatches` on a non-empty list. -/
theorem toBatches_eq_cons (l : List Row) (h : l ≠ []) :
    toBatches l = l.take batchSize :: toBatches (l.drop batchSize) := by
  obtain ⟨x, xs, rfl⟩ := List.exists_cons_of_ne_nil h
  simp only [toBatches, List.length_cons, toBatchesAux]
  congr 1
  apply toBatchesAux_congr
  · simp [batchSize]
  · exact le_refl _

theorem toBatches_nil : toBatches [] = [] := rfl

/-- The number of batches is `⌈n / 400⌉`. -/
theorem toBatches_length (l : List Row) (h : l ≠ []) :
    (toBatches l).length = (l.length + 399) / 400 := by
  rw [toBatches_eq_cons l h]
  by_cases hle : l.length ≤ 400
  · have hd : l.drop batchSize = [] := by
      apply List.drop_eq_nil_of_le
      simpa [batchSize] using hle
    rw [hd, toBatches_nil]
    have h1 : 1 ≤ l.length := List.length_pos.mpr h
    simp only [List.length_cons, List.length_nil]
    omega
  · have hd : l.drop batchSize ≠ [] := by
      simp only [batchSize, ne_eq, List.drop_eq_nil_iff, not_le]
      omega
    have hrec := toBatches_length (l.drop batchSize) hd
    simp only [batchSize, List.length_drop] at hrec ⊢
    simp only [List.length_cons, hrec]
    omega
termination_by l.length
decreasing_by simp [batchSize]; omega

/-- The batches concatenate back to the input, in order. -/
theorem toBatches_flatten (l : List Row) : (toBatches l).flatten = l := by
  by_cases h : l = []
  · subst h; rfl
  · rw [toBatches_eq_cons l h]
    simp only [List.flatten_cons]
    rw [toBatches_flatten (l.drop batchSize)]
    exact List.take_append_drop _ l
termination_by l.length
decreasing_by
  simp only [batchSize, List.length_drop]
  have : 1 ≤ l.length := List.length_pos.mpr h
  omega

/-- Every batch except possibly the last has exactly 400 rows. -/
theorem toBatches_dropLast (l : List Row) :
    ∀ b ∈ (toBatches l).dropLast, b.length = 400 := by
  by_cases h : l = []
  · subst h; intro b hb; simp [toBatches_nil] at hb
  · rw [toBatches_eq_cons l h]
    by_cases hd : l.drop batchSize = []
    · rw [hd, toBatches_nil]
      intro b hb; simp at hb
    · have hrest : toBatches (l.drop batchSize) ≠ [] := by
        rw [toBatches_eq_cons _ hd]; simp
      intro b hb
      rw [List.dropLast_cons_of_ne_nil hrest] at hb
      rcases List.mem_cons.mp hb with rfl | hb'
      · have : 400 < l.length := by
          by_contra hc
          exact hd (List.drop_eq_nil_of_le (by simpa [batchSize] using hc))
        simp [batchSize, List.length_take]
        omega
      · exact toBatches_dropLast (l.drop batchSize) b hb'
termination_by l.length
decreasing_by
  simp only [batchSize, List.length_drop]
  have : 1 ≤ l.length := List.length_pos.mpr h
  omega

/-- The final batch holds `n mod 400` rows (`400` when `n` is a
multiple). -/
theorem toBatches_getLast (l : List Row) (h : l ≠ []) :
    ∃ lb, (toBatches l).getLast? = some lb ∧
      lb.length = if l.length % 400 = 0 then 400 else l.length % 400 := by
  rw [toBatches_eq_cons l h]
  by_cases hd : l.drop batchSize = []
  · rw [hd, toBatches_nil]
    refine ⟨l.take batchSize, rfl, ?_⟩
    have h1 : 1 ≤ l.length := List.length_pos.mpr h
    have hle : l.length ≤ 400 := by
      by_contra hc
      have : l.drop batchSize ≠ [] := by
        simp only [batchSize, ne_eq, List.drop_eq_nil_iff, not_le]
        omega
      exact this hd
    simp only [batchSize, List.length_take]
    split <;> omega
  · obtain ⟨lb, hlb, hlen⟩ := toBatches_getLast (l.drop batchSize) hd
    refine ⟨lb, ?_, ?_⟩
    · have hrest : toBatches (l.drop batchSize) ≠ [] := by
        rw [toBatches_eq_cons _ hd]; simp
      obtain ⟨y, ys, hys⟩ := List.exists_cons_of_ne_nil hrest
      rw [hys] at hlb ⊢
      rw [List.getLast?_cons_cons]
      exact hlb
    · rw [hlen]
      have hgt : 400 < l.length := by
        by_contra hc
        exact hd (List.drop_eq_nil_of_le (by simpa [batchSize] using hc))
      have hmod : (l.drop batchSize).length % 400 = l.length % 400 := by
        simp only [batchSize, List.length_drop]
        omega
      rw [hmod]
termination_by l.length
decreasing_by
  simp only [batchSize, List.length_drop]
  have : 1 ≤ l.length := List.length_pos.mpr h
  omega

set_option maxRecDepth 100000 in
/-- C5: for every non-empty list of parsed rows of length `n`, the
bulk import pipeline partitions the rows in order into `⌈n / 400⌉` consecutive
batches, every batch except possibly the last having exactly 400 rows and
the last having `n mod 400` rows (400 when `n` is a multiple of 400); in
particular 850 rows are dispatched as exactly 3 batches of sizes
400, 400, 50 in that order. -/
theorem bulk_import_batching (rows : List Row) (h : rows ≠ []) :
    (toBatches rows).length = (rows.length + 399) / 400 ∧
    (toBatches rows).flatten = rows ∧
    (∀ b ∈ (toBatches rows).dropLast, b.length = 400) ∧
    (∃ lb, (toBatches rows).getLast? = some lb ∧
      lb.length = if rows.length % 400 = 0 then 400 else rows.length % 400) ∧
    (toBatches (List.replicate 850 ([] : Row))).map List.length = [400, 400, 50] :=
  ⟨toBatches_length rows h, toBatches_flatten rows, toBatches_dropLast rows,
    toBatches_getLast rows h, by rfl⟩

set_option maxRecDepth 100000 in
/-- C5 witness: the theorem applied to a concrete 850-row import. -/
theorem bulk_import_batching_witness :
    (List.replicate 850 ([] : Row)) ≠ [] ∧
    (toBatches (List.replicate 850 ([] : Row))).length = (850 + 399) / 400 := by
  have hne : (List.replicate 850 ([] : Row)) ≠ [] :=
    List.ne_nil_of_length_pos (by rw [List.length_replicate]; omega)
  refine ⟨hne, ?_⟩
  have h := bulk_import_batching (List.replicate 850 ([] : Row)) hne
  rw [h.1, List.length_replicate]

/-- C2: the bulk-import `time` conversion does NOT re-read the original
unshifted instant.  `processedRow` is a shallow copy of `row`, the
`setHours(+12)` mutates the shared `Date` object, and the `time` branch's
re-read of `row[field.name]` therefore observes the shifted instant: a
cell parsed as 09:30 (570 minutes) is normalized to `"21:30"`, not
`"09:30"` — the hour is shifted by +12 mod 24, contradicting both the
spec and the source's own comment (`DataEntry.tsx:219`, "use the original
value from the row again to be safe for time"). -/
theorem time_cell_formats_shifted_instant :
    normalizeRow [⟨"f1", "t", FieldType.time, true, []⟩] [("t", JsVal.date 570)]
        = [("t", JsVal.str "21:30")] ∧
    formatTimeHM 570 = "09:30" ∧
    (∀ t, normalizeDateCell FieldType.time t = JsVal.str (formatTimeHM (t + 720))) :=
  ⟨by decide, by decide, fun _ => rfl⟩

/-- C7: an empty parsed-rows input fails fast with `EmptyImport`: the
pipeline result is the fast-fail value, no batch is formed, no row outcome
and no stored document exist. -/
theorem empty_import_fast_fail :
    (∀ form uid, bulkImport form uid [] = ImportResult.emptyImport) ∧
    toBatches [] = [] :=
  ⟨fun _ _ => rfl, rfl⟩

/-! ## Required-field validation (C6) -/

/-- The strict-equality test of the bulk path coincides, value by value,
with the spec's absent/null/empty-string predicate. -/
theorem isMissingValue_eq (v : JsVal) :
    isMissingValue v =
      (v == JsVal.undefined || v == JsVal.null || v == JsVal.str "") := by
  cases v <;> simp [isMissingValue]
  case str s => by_cases hs : s = "" <;> simp [hs]

/-- Helper: `importCounts` with an arbitrary starting accumulator. -/
theorem importCounts_foldl (outs : List RowOutcome) (s e : ℕ) :
    outs.foldl
        (fun acc o =>
          match o with
          | RowOutcome.invalid => (acc.1, acc.2 + 1)
          | RowOutcome.stored _ => (acc.1 + 1, acc.2))
        (s, e) =
      (s + (outs.countP fun o => o matches RowOutcome.stored _),
        e + (outs.countP fun o => o matches RowOutcome.invalid)) := by
  induction outs generalizing s e with
  | nil => simp
  | cons o rest ih =>
    cases o <;> simp [List.countP_cons, ih] <;> omega

/-- `importCounts` counts exactly the stored and the invalid outcomes. -/
theorem importCounts_eq (outs : List RowOutcome) :
    importCounts outs =
      (outs.countP fun o => o matches RowOutcome.stored _,
        outs.countP fun o => o matches RowOutcome.invalid) := by
  have h := importCounts_foldl outs 0 0
  simpa [importCounts] using h

/-- `storedDocs` has one document per stored outcome. -/
theorem storedDocs_length (outs : List RowOutcome) :
    (storedDocs outs).length = outs.countP fun o => o matches RowOutcome.stored _ := by
  induction outs with
  | nil => rfl
  | cons o rest ih =>
    cases o <;>
      simp only [storedDocs] at ih ⊢ <;>
      simp [List.filterMap_cons, List.countP_cons, ih]

/-- C6 (amended): the bulk-import required-field check is exactly the
spec's absent/null/empty-string predicate; the manual-entry check instead
tests JS truthiness, failing exactly when some required field's value is
falsy (which additionally rejects the number `0` and `false`); and a bulk
row that fails the check yields an `invalid` outcome, so the import report
counts it in `errorCount` and not in `successCount`, and persists no
document for it. -/
theorem required_field_validation :
    (∀ (fields : List FormField) (row : Row),
      bulkMissingRequired fields row = specMissingRequired fields row) ∧
    (∀ (fields : List FormField) (row : Row),
      manualMissingRequired fields row = true ↔
        ∃ f ∈ fields, f.required = true ∧ falsy (getJs row f.name) = true) ∧
    (∀ (form : FormSchema) (uid : String) (row : Row),
      bulkMissingRequired form.fields (normalizeRow form.fields row) = true →
        processRow form uid row = RowOutcome.invalid) ∧
    (∀ (form : FormSchema) (uid : String) (rows : List Row), rows ≠ [] →
      ∃ s e docs, bulkImport form uid rows = ImportResult.report s e docs ∧
        e = rows.countP
          (fun r => bulkMissingRequired form.fields (normalizeRow form.fields r)) ∧
        s = rows.countP
          (fun r => !bulkMissingRequired form.fields (normalizeRow form.fields r)) ∧
        docs.length = s) := by
  refine ⟨?_, ?_, ?_, ?_⟩
  · intro fields row
    unfold bulkMissingRequired specMissingRequired
    induction fields with
    | nil => rfl
    | cons f fs ih => simp [List.any_cons, ih, isMissingValue_eq]
  · intro fields row
    simp [manualMissingRequired, List.any_eq_true, Bool.and_eq_true]
  · intro form uid row h
    unfold processRow
    simp [h]
  · intro form uid rows hne
    have hguard : rows.isEmpty = false := by
      cases rows with
      | nil => exact absurd rfl hne
      | cons _ _ => rfl
    have houts :
        ((toBatches rows).map (fun chunk => chunk.map (processRow form uid))).flatten =
          rows.map (processRow form uid) := by
      rw [← List.map_flatten, toBatches_flatten]
    have hinv :
        (fun o => o matches RowOutcome.invalid) ∘ processRow form uid =
          fun r => bulkMissingRequired form.fields (normalizeRow form.fields r) := by
      funext r
      simp only [Function.comp, processRow]
      by_cases hb : bulkMissingRequired form.fields (normalizeRow form.fields r) <;>
        simp [hb]
    have hsto :
        (fun o => o matches RowOutcome.stored _) ∘ processRow form uid =
          fun r => !bulkMissingRequired form.fields (normalizeRow form.fields r) := by
      funext r
      simp only [Function.comp, processRow]
      by_cases hb : bulkMissingRequired form.fields (normalizeRow form.fields r) <;>
        simp [hb]
    have hrep : bulkImport form uid rows =
        ImportResult.report (importCounts (rows.map (processRow form uid))).1
          (importCounts (rows.map (processRow form uid))).2
          (storedDocs (rows.map (processRow form uid))) := by
      simp only [bulkImport, hguard, Bool.false_eq_true, if_false, houts]
    refine ⟨_, _, _, hrep, ?_, ?_, ?_⟩
    · rw [importCounts_eq]
      simp only [List.countP_map, hinv]
    · rw [importCounts_eq]
      simp only [List.countP_map, hsto]
    · rw [storedDocs_length, importCounts_eq, List.countP_map, hsto]

/-- C6 witness: the theorem applied to a concrete one-field form and a
one-row import whose required value is `null`. -/
theorem required_field_validation_witness :
    ([(("x" : String), JsVal.null)] : Row) ≠ [] ∧
    ∃ s e docs,
      bulkImport ⟨"fm", "F", [⟨"f1", "x", FieldType.text, true, []⟩]⟩ "u"
          [[("x", JsVal.null)]] = ImportResult.report s e docs ∧
      e = 1 ∧ s = 0 ∧ docs = [] := by
  constructor
  · simp
  · have h := required_field_validation.2.2.2
      ⟨"fm", "F", [⟨"f1", "x", FieldType.text, true, []⟩]⟩ "u"
      [[("x", JsVal.null)]] (by simp)
    obtain ⟨s, e, docs, heq, he, hs, hd⟩ := h
    refine ⟨s, e, docs, heq, ?_, ?_, ?_⟩
    · rw [he]; decide
    · rw [hs]; decide
    · have hs0 : s = 0 := by rw [hs]; decide
      rw [hs0] at hd
      exact List.length_eq_zero.mp hd

/-- C6 counterexample: the claim's "exactly absent, null, or empty string"
fails on the manual-entry path — a required field holding the number `0`
(not absent, not null, not an empty string) is rejected there, because the
check tests JS truthiness. -/
theorem required_field_validation_cx :
    manualMissingRequired [⟨"f1", "x", FieldType.number, true, []⟩]
        [("x", JsVal.num 0)] = true ∧
    specMissingRequired [⟨"f1", "x", FieldType.number, true, []⟩]
        [("x", JsVal.num 0)] = false := by
  constructor <;> decide

/-! ## Basic structure of the histogram and Pareto transforms -/

theorem mkBins_length (mn s : ℚ) (t : Option ℚ) : (mkBins mn s t).length = 10 := rfl

theorem incAt_length (l : List Bin) (n : ℕ) : (incAt l n).length = l.length := by
  induction l generalizing n with
  | nil => rfl
  | cons b bs ih =>
    cases n with
    | zero => rfl
    | succ m => simp [incAt, ih]

theorem fillBins_length (bins : List Bin) (values : List ℚ) :
    (fillBins bins values).length = bins.length := by
  induction values generalizing bins with
  | nil => rfl
  | cons v vs ih => simp only [fillBins, List.foldl_cons] at ih ⊢; rw [ih, incAt_length]

/-- The histogram branch always yields exactly `binCount = 10` bins on a
non-empty series. -/
theorem histogramBins_length (values : List ℚ) (t : Option ℚ) (h : values ≠ []) :
    (histogramBins values t).length = 10 := by
  unfold histogramBins
  rw [if_neg (by simpa using h), fillBins_length, mkBins_length]

theorem upsert_ne_nil (acc : List (String × ℚ)) (k : String) (v : ℚ) :
    upsert acc k v ≠ [] := by
  cases acc with
  | nil => simp [upsert]
  | cons p r =>
    obtain ⟨k', v'⟩ := p
    by_cases hk : k' = k <;> simp [upsert, hk]

theorem foldl_upsert_ne_nil (g : Submission → String) (q : Submission → ℚ) :
    ∀ (l : List Submission) (acc : List (String × ℚ)), (acc ≠ [] ∨ l ≠ []) →
      l.foldl (fun a sub => upsert a (g sub) (q sub)) acc ≠ [] := by
  intro l
  induction l with
  | nil =>
    intro acc h
    rcases h with h | h
    · simpa using h
    · exact absurd rfl h
  | cons s rest ih =>
    intro acc _
    simp only [List.foldl_cons]
    exact ih _ (Or.inl (upsert_ne_nil _ _ _))

theorem groupedPairs_ne_nil (subs : List Submission) (xA yA : String) (h : subs ≠ []) :
    groupedPairs subs xA yA ≠ [] :=
  foldl_upsert_ne_nil _ _ subs [] (Or.inr h)

theorem insertDesc_ne_nil (p : String × ℚ) (l : List (String × ℚ)) :
    insertDesc p l ≠ [] := by
  cases l with
  | nil => simp [insertDesc]
  | cons q r => by_cases hq : q.2 < p.2 <;> simp [insertDesc, hq]

theorem foldl_insertDesc_ne_nil :
    ∀ (l acc : List (String × ℚ)), (acc ≠ [] ∨ l ≠ []) →
      l.foldl (fun a q => insertDesc q a) acc ≠ [] := by
  intro l
  induction l with
  | nil =>
    intro acc h
    rcases h with h | h
    · simpa using h
    · exact absurd rfl h
  | cons x xs ih =>
    intro acc _
    simp only [List.foldl_cons]
    exact ih _ (Or.inl (insertDesc_ne_nil _ _))

theorem sortDesc_ne_nil (l : List (String × ℚ)) (h : l ≠ []) : sortDesc l ≠ [] :=
  foldl_insertDesc_ne_nil l [] (Or.inr h)

theorem paretoGo_ne_nil (total : ℚ) (t : Option ℚ) (cum : ℚ)
    (l : List (String × ℚ)) (h : l ≠ []) : paretoGo total t cum l ≠ [] := by
  cases l with
  | nil => exact absurd rfl h
  | cons p r => simp [paretoGo]

theorem paretoPoints_ne_nil (subs : List Submission) (xA yA : String)
    (t : Option ℚ) (h : subs ≠ []) : paretoPoints subs xA yA t ≠ [] := by
  unfold paretoPoints
  exact paretoGo_ne_nil _ _ _ _ (sortDesc_ne_nil _ (groupedPairs_ne_nil subs xA yA h))

/-- C1 (amended): the aggregation engine returns the empty sequence
**exactly when** submissions are empty or `xAxis` is unset or `yAxis` is
unset — for every chart type.  The guard applies uniformly: histogram does
not get by on `yAxis` alone, nor pareto on `xAxis` alone. -/
theorem aggregate_empty_iff (subs : List Submission) (config : ChartConfig) :
    chartData subs config = [] ↔
      subs = [] ∨ config.xAxis = "" ∨ config.yAxis = "" := by
  unfold chartData
  by_cases hg : subs = [] ∨ config.xAxis = "" ∨ config.yAxis = ""
  · simp [hg]
  · rw [if_neg hg]
    push_neg at hg
    obtain ⟨hs, hx, hy⟩ := hg
    constructor
    · intro hempty
      by_cases h1 : config.type = ChartType.histogram
      · rw [if_pos h1] at hempty
        have hlen := histogramBins_length
          (subs.map fun s => toNum (getJs s.data config.yAxis)) config.target
          (by simpa using hs)
        rw [List.map_eq_nil_iff.mp hempty] at hlen
        simp at hlen
      · rw [if_neg h1] at hempty
        by_cases h2 : config.type = ChartType.pareto
        · rw [if_pos h2] at hempty
          exact absurd (List.map_eq_nil_iff.mp hempty)
            (paretoPoints_ne_nil subs config.xAxis config.yAxis config.target hs)
        · rw [if_neg h2] at hempty
          have henum := List.map_eq_nil_iff.mp hempty
          have hlen := congrArg List.length henum
          rw [List.enum_length] at hlen
          exact absurd (List.eq_nil_of_length_eq_zero hlen) hs
    · intro hor
      rcases hor with h | h | h
      exacts [absurd h hs, absurd h hx, absurd h hy]

/-- C1 counterexample: the claim as stated is false — a histogram config
with a set `yAxis` but unset `xAxis` over a non-empty submission list
yields the empty sequence (not the documented bins), and likewise a pareto
config with a set `xAxis` but unset `yAxis`. -/
theorem aggregate_empty_iff_cx :
    chartData [⟨[("y", JsVal.num 1)]⟩]
        ⟨ChartType.histogram, "", "y", none, none, none⟩ = [] ∧
    chartData [⟨[("cat", JsVal.str "A"), ("val", JsVal.num 1)]⟩]
        ⟨ChartType.pareto, "cat", "", none, none, none⟩ = [] := by
  constructor <;> simp [chartData]

/-! ## Pareto cumulative percentages -/

/-- The last point of the cumulative pass carries the rounded percentage of
the full remaining sum. -/
theorem paretoGo_getLast :
    ∀ (l : List (String × ℚ)) (total : ℚ) (t : Option ℚ) (cum : ℚ), l ≠ [] →
      ∃ p, (paretoGo total t cum l).getLast? = some p ∧
        p.cumulativePercentage = round ((cum + (l.map Prod.snd).sum) / total * 100) := by
  intro l
  induction l with
  | nil => intro _ _ _ h; exact absurd rfl h
  | cons a rest ih =>
    intro total t cum _
    obtain ⟨n, v⟩ := a
    cases rest with
    | nil =>
      refine ⟨⟨n, v, round ((cum + v) / total * 100), t⟩, by simp [paretoGo], ?_⟩
      simp
    | cons b r2 =>
      obtain ⟨p, hp, hpc⟩ := ih total t (cum + v) (by simp)
      refine ⟨p, ?_, ?_⟩
      · have hcons : paretoGo total t cum ((n, v) :: b :: r2) =
            ⟨n, v, round ((cum + v) / total * 100), t⟩ ::
              paretoGo total t (cum + v) (b :: r2) := rfl
        rw [hcons]
        have hne : paretoGo total t (cum + v) (b :: r2) ≠ [] :=
          paretoGo_ne_nil _ _ _ _ (by simp)
        obtain ⟨y, ys, hys⟩ := List.exists_cons_of_ne_nil hne
        rw [hys] at hp ⊢
        rw [List.getLast?_cons_cons]
        exact hp
      · rw [hpc]
        congr 1
        simp only [List.map_cons, List.sum_cons]
        ring

/-- The three-submission Pareto scenario of the spec, grouped. -/
theorem paretoScenario_sorted :
    sortDesc (groupedPairs
        [⟨[("cat", JsVal.str "A"), ("val", JsVal.num 10)]⟩,
          ⟨[("cat", JsVal.str "B"), ("val", JsVal.num 30)]⟩,
          ⟨[("cat", JsVal.str "A"), ("val", JsVal.num 10)]⟩] "cat" "val") =
      [("B", (30 : ℚ)), ("A", 20)] := by
  have h1 : groupedPairs
      [⟨[("cat", JsVal.str "A"), ("val", JsVal.num 10)]⟩,
        ⟨[("cat", JsVal.str "B"), ("val", JsVal.num 30)]⟩,
        ⟨[("cat", JsVal.str "A"), ("val", JsVal.num 10)]⟩] "cat" "val" =
      [("A", (10 : ℚ) + 10), ("B", 30)] := rfl
  rw [h1]
  norm_num
  decide

/-- The three-submission Pareto scenario of the spec, total sum. -/
theorem paretoScenario_total :
    paretoTotal
        [⟨[("cat", JsVal.str "A"), ("val", JsVal.num 10)]⟩,
          ⟨[("cat", JsVal.str "B"), ("val", JsVal.num 30)]⟩,
          ⟨[("cat", JsVal.str "A"), ("val", JsVal.num 10)]⟩] "cat" "val" = 50 := by
  unfold paretoTotal
  rw [paretoScenario_sorted]
  norm_num

/-- C4: the Pareto transform groups by the stringified `xAxis` value,
sums the coerced `yAxis` per group, sorts descending, and assigns
`round(cumulative / total * 100)`; whenever the total is non-zero the last
group's cumulative percentage is exactly 100; and on the three-submission
scenario `[{cat:"A",val:10},{cat:"B",val:30},{cat:"A",val:10}]` the output
is `[B:30 (60%), A:20 (100%)]`. -/
theorem pareto_last_cumulative_100 :
    (∀ (subs : List Submission) (xA yA : String) (t : Option ℚ),
      subs ≠ [] → paretoTotal subs xA yA ≠ 0 →
      ∃ p, (paretoPoints subs xA yA t).getLast? = some p ∧
        p.cumulativePercentage = 100) ∧
    chartData
        [⟨[("cat", JsVal.str "A"), ("val", JsVal.num 10)]⟩,
          ⟨[("cat", JsVal.str "B"), ("val", JsVal.num 30)]⟩,
          ⟨[("cat", JsVal.str "A"), ("val", JsVal.num 10)]⟩]
        ⟨ChartType.pareto, "cat", "val", none, none, none⟩ =
      [ChartPoint.pareto ⟨"B", 30, 60, none⟩, ChartPoint.pareto ⟨"A", 20, 100, none⟩] := by
  constructor
  · intro subs xA yA t hne htot
    obtain ⟨p, hp, hpc⟩ :=
      paretoGo_getLast (sortDesc (groupedPairs subs xA yA)) (paretoTotal subs xA yA) t 0
        (sortDesc_ne_nil _ (groupedPairs_ne_nil subs xA yA hne))
    refine ⟨p, hp, ?_⟩
    rw [hpc]
    have harg : (0 + ((sortDesc (groupedPairs subs xA yA)).map Prod.snd).sum) /
        paretoTotal subs xA yA * 100 = (100 : ℚ) := by
      unfold paretoTotal at htot ⊢
      field_simp
    rw [harg]
    rw [show (100 : ℚ) = ((100 : ℤ) : ℚ) by norm_num, round_intCast]
  · have hsort := paretoScenario_sorted
    have htot := paretoScenario_total
    have hpts : paretoPoints
        [⟨[("cat", JsVal.str "A"), ("val", JsVal.num 10)]⟩,
          ⟨[("cat", JsVal.str "B"), ("val", JsVal.num 30)]⟩,
          ⟨[("cat", JsVal.str "A"), ("val", JsVal.num 10)]⟩] "cat" "val" none =
        [⟨"B", 30, 60, none⟩, ⟨"A", 20, 100, none⟩] := by
      unfold paretoPoints
      rw [hsort, htot]
      have hgo : paretoGo 50 none 0 [("B", (30 : ℚ)), ("A", 20)] =
          [⟨"B", 30, round ((0 + (30 : ℚ)) / 50 * 100), none⟩,
            ⟨"A", 20, round ((0 + (30 : ℚ) + 20) / 50 * 100), none⟩] := rfl
      rw [hgo]
      norm_num
    have hguard : ¬(([⟨[("cat", JsVal.str "A"), ("val", JsVal.num 10)]⟩,
          ⟨[("cat", JsVal.str "B"), ("val", JsVal.num 30)]⟩,
          ⟨[("cat", JsVal.str "A"), ("val", JsVal.num 10)]⟩] : List Submission) = [] ∨
        ("cat" : String) = "" ∨ ("val" : String) = "") := by simp
    unfold chartData
    rw [if_neg hguard, if_neg (by simp), if_pos rfl, hpts]
    rfl

/-- C4 witness: the general statement applied to the concrete
three-submission scenario (total 50 ≠ 0). -/
theorem pareto_last_cumulative_100_witness :
    paretoTotal
        [⟨[("cat", JsVal.str "A"), ("val", JsVal.num 10)]⟩,
          ⟨[("cat", JsVal.str "B"), ("val", JsVal.num 30)]⟩,
          ⟨[("cat", JsVal.str "A"), ("val", JsVal.num 10)]⟩] "cat" "val" ≠ 0 ∧
    ∃ p, (paretoPoints
        [⟨[("cat", JsVal.str "A"), ("val", JsVal.num 10)]⟩,
          ⟨[("cat", JsVal.str "B"), ("val", JsVal.num 30)]⟩,
          ⟨[("cat", JsVal.str "A"), ("val", JsVal.num 10)]⟩] "cat" "val" none).getLast? =
      some p ∧ p.cumulativePercentage = 100 := by
  have htot : paretoTotal
      [⟨[("cat", JsVal.str "A"), ("val", JsVal.num 10)]⟩,
        ⟨[("cat", JsVal.str "B"), ("val", JsVal.num 30)]⟩,
        ⟨[("cat", JsVal.str "A"), ("val", JsVal.num 10)]⟩] "cat" "val" ≠ 0 := by
    rw [paretoScenario_total]
    norm_num
  exact ⟨htot, pareto_last_cumulative_100.1 _ "cat" "val" none (by simp) htot⟩

/-- C10: in the Pareto transform every submission whose `xAxis` value is
falsy — not only missing or `null` but also the number `0`, the empty
string, or `false` — is keyed by the literal string `"Unknown"`;
consequently, in the concrete scenario below the legitimate category
values `0` and `""` are merged into the single `"Unknown"` group (summing
5 + 7 = 12) instead of forming their own groups. -/
theorem pareto_falsy_key_unknown :
    (∀ v : JsVal, falsy v = true → paretoKey v = "Unknown") ∧
    chartData
        [⟨[("cat", JsVal.num 0), ("val", JsVal.num 5)]⟩,
          ⟨[("cat", JsVal.str ""), ("val", JsVal.num 7)]⟩,
          ⟨[("cat", JsVal.str "X"), ("val", JsVal.num 1)]⟩]
        ⟨ChartType.pareto, "cat", "val", none, none, none⟩ =
      [ChartPoint.pareto ⟨"Unknown", 12, 92, none⟩,
        ChartPoint.pareto ⟨"X", 1, 100, none⟩] := by
  constructor
  · intro v h
    unfold paretoKey
    rw [if_pos h]
    rfl
  · have h1 : groupedPairs
        [⟨[("cat", JsVal.num 0), ("val", JsVal.num 5)]⟩,
          ⟨[("cat", JsVal.str ""), ("val", JsVal.num 7)]⟩,
          ⟨[("cat", JsVal.str "X"), ("val", JsVal.num 1)]⟩] "cat" "val" =
        [("Unknown", (5 : ℚ) + 7), ("X", 1)] := rfl
    have hsort : sortDesc (groupedPairs
        [⟨[("cat", JsVal.num 0), ("val", JsVal.num 5)]⟩,
          ⟨[("cat", JsVal.str ""), ("val", JsVal.num 7)]⟩,
          ⟨[("cat", JsVal.str "X"), ("val", JsVal.num 1)]⟩] "cat" "val") =
        [("Unknown", (12 : ℚ)), ("X", 1)] := by
      rw [h1]
      norm_num
      decide
    have htot : paretoTotal
        [⟨[("cat", JsVal.num 0), ("val", JsVal.num 5)]⟩,
          ⟨[("cat", JsVal.str ""), ("val", JsVal.num 7)]⟩,
          ⟨[("cat", JsVal.str "X"), ("val", JsVal.num 1)]⟩] "cat" "val" = 13 := by
      unfold paretoTotal
      rw [hsort]
      norm_num
    have hpts : paretoPoints
        [⟨[("cat", JsVal.num 0), ("val", JsVal.num 5)]⟩,
          ⟨[("cat", JsVal.str ""), ("val", JsVal.num 7)]⟩,
          ⟨[("cat", JsVal.str "X"), ("val", JsVal.num 1)]⟩] "cat" "val" none =
        [⟨"Unknown", 12, 92, none⟩, ⟨"X", 1, 100, none⟩] := by
      unfold paretoPoints
      rw [hsort, htot]
      have hgo : paretoGo 13 none 0 [("Unknown", (12 : ℚ)), ("X", 1)] =
          [⟨"Unknown", 12, round ((0 + (12 : ℚ)) / 13 * 100), none⟩,
            ⟨"X", 1, round ((0 + (12 : ℚ) + 1) / 13 * 100), none⟩] := rfl
      rw [hgo]
      norm_num [round_eq]
    have hguard : ¬(([⟨[("cat", JsVal.num 0), ("val", JsVal.num 5)]⟩,
          ⟨[("cat", JsVal.str ""), ("val", JsVal.num 7)]⟩,
          ⟨[("cat", JsVal.str "X"), ("val", JsVal.num 1)]⟩] : List Submission) = [] ∨
        ("cat" : String) = "" ∨ ("val" : String) = "") := by simp
    unfold chartData
    rw [if_neg hguard, if_neg (by simp), if_pos rfl, hpts]
    rfl

/-- C10 witness: the general falsy-key statement applied to the concrete
value `0`. -/
theorem pareto_falsy_key_unknown_witness :
    falsy (JsVal.num 0) = true ∧ paretoKey (JsVal.num 0) = "Unknown" :=
  ⟨by decide, pareto_falsy_key_unknown.1 (JsVal.num 0) (by decide)⟩

/-! ## Viewport zoom / pan -/

/-- One wheel step always leaves the lower endpoint in place and clamps
the upper endpoint to `lo + max(dataValues) * 1.1`, whatever the scroll
direction. -/
theorem handleWheel_step (dataVals : List ℚ) (dy : ℚ) (d : YDomain)
    (hne : dataVals ≠ []) :
    (handleWheel dataVals dy d).lo = d.lo ∧
    ∀ y, (handleWheel dataVals dy d).hi = YBound.val y →
      y ≤ d.lo + maxD dataVals * (11 / 10) := by
  unfold handleWheel
  rw [if_neg (by simpa [List.isEmpty_iff] using hne)]
  refine ⟨rfl, ?_⟩
  intro y hy
  simp only [YBound.val.injEq] at hy
  subst hy
  exact add_le_add_left (min_le_right _ _) d.lo

/-- The wheel invariant over any gesture sequence starting at `(0, auto)`:
the lower endpoint stays 0 and any explicit upper endpoint stays at or
below `max(dataValues) * 1.1`. -/
theorem handleWheel_foldl_inv (dataVals : List ℚ) (hne : dataVals ≠ []) :
    ∀ (deltas : List ℚ) (d : YDomain), d.lo = 0 →
      (∀ y, d.hi = YBound.val y → y ≤ maxD dataVals * (11 / 10)) →
      (deltas.foldl (fun s dy => handleWheel dataVals dy s) d).lo = 0 ∧
        ∀ y, (deltas.foldl (fun s dy => handleWheel dataVals dy s) d).hi = YBound.val y →
          y ≤ maxD dataVals * (11 / 10) := by
  intro deltas
  induction deltas with
  | nil => intro d hlo hhi; exact ⟨hlo, hhi⟩
  | cons dy rest ih =>
    intro d hlo hhi
    simp only [List.foldl_cons]
    obtain ⟨hlo', hhi'⟩ := handleWheel_step dataVals dy d hne
    refine ih (handleWheel dataVals dy d) (hlo'.trans hlo) ?_
    intro y hy
    have := hhi' y hy
    rw [hlo, zero_add] at this
    exact this

/-- C8: starting from the viewport `(0, "auto")` over chart data whose
maximum yAxis value is 100, a single zoom-in scroll tick (negative wheel
delta) yields the domain `(0, 99)`, strictly narrower than `(0, 110)`;
and over any sequence of zoom-out scroll ticks (positive deltas) the
resulting explicit `yMax` never exceeds `110 = max * 1.1`, because every
wheel step clamps the new range to `max(dataValues) * 1.1`. -/
theorem viewport_zoom_clamped :
    (∀ (dataVals : List ℚ) (dy : ℚ), maxD dataVals = 100 → dy < 0 →
      handleWheel dataVals dy ⟨0, YBound.auto⟩ = ⟨0, YBound.val 99⟩ ∧ (99 : ℚ) < 110) ∧
    (∀ (dataVals : List ℚ) (deltas : List ℚ), maxD dataVals = 100 →
      (∀ x ∈ deltas, 0 < x) →
      ∀ y, (deltas.foldl (fun s dy => handleWheel dataVals dy s) ⟨0, YBound.auto⟩).hi
          = YBound.val y → y ≤ 110) := by
  constructor
  · intro dataVals dy hmax hdy
    have hne : dataVals ≠ [] := by
      intro hc
      rw [hc] at hmax
      simp [maxD] at hmax
    refine ⟨?_, by norm_num⟩
    unfold handleWheel
    rw [if_neg (by simpa [List.isEmpty_iff] using hne)]
    simp only [hmax]
    rw [if_neg (not_lt.mpr (le_of_lt hdy))]
    norm_num
  · intro dataVals deltas hmax _ y hy
    have hne : dataVals ≠ [] := by
      intro hc
      rw [hc] at hmax
      simp [maxD] at hmax
    have hinv := handleWheel_foldl_inv dataVals hne deltas ⟨0, YBound.auto⟩ rfl
      (by intro z hz; cases hz)
    have := hinv.2 y hy
    rw [hmax] at this
    linarith

/-- C8 witness: the theorem applied to the one-point series `[100]`, a
zoom-in tick of `-1` and the zoom-out tick sequence `[2, 3]`. -/
theorem viewport_zoom_clamped_witness :
    maxD [100] = 100 ∧
    (handleWheel [100] (-1) ⟨0, YBound.auto⟩ = ⟨0, YBound.val 99⟩ ∧ (99 : ℚ) < 110) ∧
    ∀ y, (([2, 3] : List ℚ).foldl (fun s dy => handleWheel [100] dy s)
        ⟨0, YBound.auto⟩).hi = YBound.val y → y ≤ 110 := by
  have hmax : maxD [100] = 100 := rfl
  refine ⟨hmax, viewport_zoom_clamped.1 [100] (-1) hmax (by norm_num),
    viewport_zoom_clamped.2 [100] [2, 3] hmax ?_⟩
  intro x hx
  rcases List.mem_cons.mp hx with rfl | hx'
  · norm_num
  · rcases List.mem_cons.mp hx' with rfl | hx''
    · norm_num
    · cases hx''

/-- C9: a pan step (a mouse move while dragging) is a no-op on the
viewport — and on the remembered pointer position — while `yMax` is
`"auto"`; otherwise, for pointer delta `lastY - clientY`, it shifts both
endpoints by `delta * range * 0.002` and records the pointer, so the
range width is unchanged by every pan step. -/
theorem viewport_pan_preserves_width (clientY lastY : ℚ) (d : YDomain) :
    (d.hi = YBound.auto → handleMouseMove true clientY lastY d = (d, lastY)) ∧
    (∀ vmax, d.hi = YBound.val vmax →
      handleMouseMove true clientY lastY d =
        (⟨d.lo + (lastY - clientY) * ((vmax - d.lo) * (2 / 1000)),
            YBound.val (vmax + (lastY - clientY) * ((vmax - d.lo) * (2 / 1000)))⟩,
          clientY) ∧
      (vmax + (lastY - clientY) * ((vmax - d.lo) * (2 / 1000))) -
          (d.lo + (lastY - clientY) * ((vmax - d.lo) * (2 / 1000))) = vmax - d.lo) := by
  constructor
  · intro h
    simp [handleMouseMove, h]
  · intro vmax h
    refine ⟨by simp [handleMouseMove, h], by ring⟩

/-- C9 witness: the theorem applied to the explicit domain `(0, 100)` with
a drag from `lastY = 0` to `clientY = 10`. -/
theorem viewport_pan_preserves_width_witness :
    handleMouseMove true 10 0 (⟨0, YBound.val 100⟩ : YDomain) =
      (⟨0 + ((0 : ℚ) - 10) * ((100 - 0) * (2 / 1000)),
          YBound.val (100 + ((0 : ℚ) - 10) * ((100 - 0) * (2 / 1000)))⟩, 10) :=
  ((viewport_pan_preserves_width 10 0 ⟨0, YBound.val 100⟩).2 100 rfl).1

/-! ## Histogram binning (C3) -/

theorem sorted_headD_le (l : List ℚ) (h : List.Sorted (· ≤ ·) l) :
    ∀ x ∈ l, l.headD 0 ≤ x := by
  cases l with
  | nil => intro x hx; cases hx
  | cons a t =>
    intro x hx
    rcases List.mem_cons.mp hx with rfl | hx'
    · simp
    · exact (List.sorted_cons.mp h).1 x hx'

theorem sorted_le_getLastD :
    ∀ (l : List ℚ), List.Sorted (· ≤ ·) l → ∀ x ∈ l, ∀ d, x ≤ l.getLastD d := by
  intro l
  induction l with
  | nil => intro _ x hx; cases hx
  | cons a t ih =>
    intro h x hx d
    rw [List.getLastD_cons]
    rcases List.sorted_cons.mp h with ⟨ha, ht⟩
    cases t with
    | nil =>
      rcases List.mem_cons.mp hx with rfl | hx'
      · simp
      · cases hx'
    | cons b t2 =>
      rcases List.mem_cons.mp hx with hxa | hx'
      · rw [hxa]
        exact (ha b (by simp)).trans (ih ht b (by simp) a)
      · exact ih ht x hx' a

/-- `values[0]` of the sorted series bounds every value from below. -/
theorem histMin_le (values : List ℚ) : ∀ x ∈ values, histMin values ≤ x := by
  intro x hx
  exact sorted_headD_le _ (List.sorted_insertionSort (· ≤ ·) values) x
    ((List.perm_insertionSort (· ≤ ·) values).mem_iff.mpr hx)

/-- `values[values.length - 1]` of the sorted series bounds every value
from above. -/
theorem le_histMax (values : List ℚ) : ∀ x ∈ values, x ≤ histMax values := by
  intro x hx
  exact sorted_le_getLastD _ (List.sorted_insertionSort (· ≤ ·) values) x
    ((List.perm_insertionSort (· ≤ ·) values).mem_iff.mpr hx) 0

theorem histMin_mem (values : List ℚ) (h : values ≠ []) : histMin values ∈ values := by
  have hne : List.insertionSort (· ≤ ·) values ≠ [] := by
    intro hc
    have hlen := List.length_insertionSort (· ≤ ·) values
    rw [hc] at hlen
    exact h (List.eq_nil_of_length_eq_zero hlen.symm)
  obtain ⟨a, t, hat⟩ := List.exists_cons_of_ne_nil hne
  have hm : histMin values = a := by unfold histMin; rw [hat]; rfl
  rw [hm]
  have hmem : a ∈ List.insertionSort (· ≤ ·) values := by
    rw [hat]
    exact List.mem_cons_self a t
  exact (List.perm_insertionSort (· ≤ ·) values).mem_iff.mp hmem

theorem histMin_le_histMax (values : List ℚ) (h : values ≠ []) :
    histMin values ≤ histMax values :=
  le_histMax values _ (histMin_mem values h)

theorem histBinSize_pos (values : List ℚ) (h : values ≠ []) :
    0 < histBinSize values := by
  unfold histBinSize
  by_cases hz : (histMax values - histMin values) / (binCount : ℚ) = 0
  · rw [if_pos hz]; norm_num
  · rw [if_neg hz]
    have hle := histMin_le_histMax values h
    have hnn : (0 : ℚ) ≤ (histMax values - histMin values) / (binCount : ℚ) := by
      apply div_nonneg
      · linarith
      · norm_num [binCount]
    exact lt_of_le_of_ne hnn (Ne.symm hz)

theorem histBinSize_top (values : List ℚ) (h : histMin values < histMax values) :
    histMin values + 10 * histBinSize values = histMax values := by
  unfold histBinSize
  have hz : (histMax values - histMin values) / (binCount : ℚ) ≠ 0 := by
    rw [div_ne_zero_iff]
    constructor
    · intro hc; linarith
    · norm_num [binCount]
  rw [if_neg hz]
  have hb : ((binCount : ℕ) : ℚ) = 10 := by norm_num [binCount]
  rw [hb]
  field_simp

theorem histBinSize_degenerate (values : List ℚ) (h : histMax values = histMin values) :
    histBinSize values = 1 := by
  unfold histBinSize
  rw [if_pos (by rw [h]; simp)]

theorem incAt_map_binSpan (l : List Bin) (n : ℕ) :
    (incAt l n).map binSpan = l.map binSpan := by
  induction l generalizing n with
  | nil => rfl
  | cons b bs ih =>
    cases n with
    | zero => simp [incAt, binSpan]
    | succ m => simp [incAt, ih]

theorem findBinIdx_congr (v : ℚ) :
    ∀ (l l' : List Bin), l.map binSpan = l'.map binSpan →
      findBinIdx v l = findBinIdx v l' := by
  intro l
  induction l with
  | nil =>
    intro l' h
    cases l' with
    | nil => rfl
    | cons b bs => simp at h
  | cons b bs ih =>
    intro l' h
    cases l' with
    | nil => simp at h
    | cons c cs =>
      simp only [List.map_cons, List.cons.injEq] at h
      obtain ⟨hbc, hrest⟩ := h
      have hstart : b.start = c.start := congrArg Prod.fst hbc
      have hstop : b.stop = c.stop := congrArg Prod.snd hbc
      simp only [findBinIdx, hstart, hstop, ih cs hrest]

theorem binIndexOf_congr (v : ℚ) (l l' : List Bin)
    (h : l.map binSpan = l'.map binSpan) : binIndexOf l v = binIndexOf l' v := by
  have hlen : l.length = l'.length := by
    have := congrArg List.length h
    simpa using this
  unfold binIndexOf
  rw [findBinIdx_congr v l l' h, hlen]

theorem fillBins_map_binSpan (vs : List ℚ) (bins : List Bin) :
    (fillBins bins vs).map binSpan = bins.map binSpan := by
  induction vs generalizing bins with
  | nil => rfl
  | cons v rest ih =>
    have hstep : fillBins bins (v :: rest) =
        fillBins (incAt bins (binIndexOf bins v)) rest := rfl
    rw [hstep, ih, incAt_map_binSpan]

theorem findBinIdx_lt (v : ℚ) :
    ∀ (l : List Bin) (i : ℕ), findBinIdx v l = some i → i < l.length := by
  intro l
  induction l with
  | nil => intro i h; simp [findBinIdx] at h
  | cons b bs ih =>
    intro i h
    simp only [findBinIdx] at h
    by_cases hp : b.start ≤ v ∧ v < b.stop
    · rw [if_pos hp] at h
      cases h
      simp
    · rw [if_neg hp] at h
      cases hfi : findBinIdx v bs with
      | none => rw [hfi] at h; simp at h
      | some j =>
        rw [hfi] at h
        simp at h
        have := ih j hfi
        simp [← h]
        omega

theorem binIndexOf_lt (l : List Bin) (v : ℚ) (h : l ≠ []) :
    binIndexOf l v < l.length := by
  unfold binIndexOf
  cases hfi : findBinIdx v l with
  | none =>
    show l.length - 1 < l.length
    have : 0 < l.length := List.length_pos.mpr h
    omega
  | some i => exact findBinIdx_lt v l i hfi

theorem incAt_map_count_sum (l : List Bin) (n : ℕ) (h : n < l.length) :
    ((incAt l n).map Bin.count).sum = (l.map Bin.count).sum + 1 := by
  induction l generalizing n with
  | nil => simp at h
  | cons b bs ih =>
    cases n with
    | zero => simp [incAt]; omega
    | succ m =>
      have hm : m < bs.length := by simpa using h
      simp [incAt, ih m hm]
      omega

theorem fillBins_map_count_sum (vs : List ℚ) (bins : List Bin) (h : bins ≠ []) :
    ((fillBins bins vs).map Bin.count).sum = (bins.map Bin.count).sum + vs.length := by
  induction vs generalizing bins with
  | nil => simp [fillBins]
  | cons v rest ih =>
    have hstep : fillBins bins (v :: rest) =
        fillBins (incAt bins (binIndexOf bins v)) rest := rfl
    have hne : incAt bins (binIndexOf bins v) ≠ [] := by
      intro hc
      have := incAt_length bins (binIndexOf bins v)
      rw [hc] at this
      exact h (List.eq_nil_of_length_eq_zero this.symm)
    rw [hstep, ih _ hne, incAt_map_count_sum bins _ (binIndexOf_lt bins v h)]
    simp
    omega

theorem incAt_getElem? (l : List Bin) (n i : ℕ) :
    (incAt l n)[i]? = (l[i]?).map
      (fun b => if i = n then { b with count := b.count + 1 } else b) := by
  induction l generalizing n i with
  | nil => simp [incAt]
  | cons b bs ih =>
    cases n with
    | zero =>
      cases i with
      | zero => simp [incAt]
      | succ j =>
        simp only [incAt, List.getElem?_cons_succ]
        cases bs[j]? <;> simp
    | succ m =>
      cases i with
      | zero => simp [incAt]
      | succ j =>
        simp only [incAt, List.getElem?_cons_succ, ih m j]
        cases bs[j]? with
        | none => simp
        | some c =>
          by_cases hj : j = m
          · simp [hj]
          · simp [hj, fun h => hj (Nat.succ_injective h)]

theorem fillBins_getElem? (vs : List ℚ) (bins : List Bin) (i : ℕ) :
    (fillBins bins vs)[i]? = (bins[i]?).map
      (fun b => { b with
        count := b.count + vs.countP (fun v => binIndexOf bins v == i) }) := by
  induction vs generalizing bins with
  | nil =>
    have h0 : fillBins bins [] = bins := rfl
    rw [h0]
    cases hb : bins[i]? with
    | none => rfl
    | some b => rfl
  | cons v rest ih =>
    have hstep : fillBins bins (v :: rest) =
        fillBins (incAt bins (binIndexOf bins v)) rest := rfl
    rw [hstep, ih, incAt_getElem?]
    have hbio : ∀ w, binIndexOf (incAt bins (binIndexOf bins v)) w = binIndexOf bins w :=
      fun w => binIndexOf_congr w _ _ (incAt_map_binSpan bins (binIndexOf bins v))
    simp only [hbio, Option.map_map]
    cases hb : bins[i]? with
    | none => simp
    | some b =>
      simp only [Option.map_some', Function.comp]
      by_cases hi : i = binIndexOf bins v
      · have hpv : (binIndexOf bins v == i) = true := by
          rw [hi]
          simp
        simp only [if_pos hi, List.countP_cons, hpv, if_true]
        cases b
        simp only [Option.some.injEq, Bin.mk.injEq, eq_self_iff_true, and_true, true_and]
        try omega
      · have hpv : (binIndexOf bins v == i) = false :=
          beq_eq_false_iff_ne.mpr (fun h => hi h.symm)
        simp only [if_neg hi, List.countP_cons, hpv, Bool.false_eq_true, if_false,
          add_zero]

theorem findBinIdx_eq_none_of (v : ℚ) :
    ∀ (l : List Bin), (∀ b ∈ l, ¬(b.start ≤ v ∧ v < b.stop)) →
      findBinIdx v l = none := by
  intro l
  induction l with
  | nil => intro _; rfl
  | cons b bs ih =>
    intro h
    simp only [findBinIdx]
    rw [if_neg (h b (by simp)), ih (fun c hc => h c (by simp [hc]))]
    rfl

theorem findBinIdx_eq_some_of (v : ℚ) :
    ∀ (l : List Bin) (i : ℕ) (hi : i < l.length),
      ((l.get ⟨i, hi⟩).start ≤ v ∧ v < (l.get ⟨i, hi⟩).stop) →
      (∀ j (hj : j < l.length), j < i →
        ¬((l.get ⟨j, hj⟩).start ≤ v ∧ v < (l.get ⟨j, hj⟩).stop)) →
      findBinIdx v l = some i := by
  intro l
  induction l with
  | nil => intro i hi; simp at hi
  | cons b bs ih =>
    intro i hi hsat hmin
    cases i with
    | zero =>
      have hsat0 : b.start ≤ v ∧ v < b.stop := hsat
      simp only [findBinIdx]
      rw [if_pos hsat0]
    | succ m =>
      have hb : ¬(b.start ≤ v ∧ v < b.stop) := hmin 0 (by simp) (Nat.succ_pos m)
      simp only [findBinIdx]
      rw [if_neg hb]
      have hm : m < bs.length := by simpa using hi
      have hsat' : (bs.get ⟨m, hm⟩).start ≤ v ∧ v < (bs.get ⟨m, hm⟩).stop := hsat
      have hmin' : ∀ j (hj : j < bs.length), j < m →
          ¬((bs.get ⟨j, hj⟩).start ≤ v ∧ v < (bs.get ⟨j, hj⟩).stop) := by
        intro j hj hjm
        exact hmin (j + 1) (by simpa using hj) (by omega)
      rw [ih m hm hsat' hmin']
      rfl

theorem mkBins_getElem? (mn s : ℚ) (t : Option ℚ) (i : ℕ) (hi : i < 10) :
    (mkBins mn s t)[i]? =
      some ⟨0, mn + (i : ℚ) * s, mn + (i : ℚ) * s + s, t⟩ := by
  unfold mkBins
  rw [List.getElem?_map, List.getElem?_range (by simpa [binCount] using hi)]
  rfl

theorem mkBins_get (mn s : ℚ) (t : Option ℚ) (i : ℕ)
    (hi : i < (mkBins mn s t).length) :
    (mkBins mn s t).get ⟨i, hi⟩ = ⟨0, mn + (i : ℚ) * s, mn + (i : ℚ) * s + s, t⟩ := by
  have h10 : i < 10 := by rw [mkBins_length] at hi; exact hi
  have hval := mkBins_getElem? mn s t i h10
  have hg : (mkBins mn s t)[i]? = some ((mkBins mn s t).get ⟨i, hi⟩) := by
    rw [List.getElem?_eq_getElem hi]
    rfl
  injection (hg.symm.trans hval)

/-- A value inside bin `i`'s half-open span is assigned to bin `i`
(bins are pairwise disjoint when the width is positive). -/
theorem binIndexOf_mkBins_of_mem (mn s : ℚ) (t : Option ℚ) (hs : 0 < s) (v : ℚ)
    (i : ℕ) (hi : i < 10) (h1 : mn + (i : ℚ) * s ≤ v) (h2 : v < mn + (i : ℚ) * s + s) :
    binIndexOf (mkBins mn s t) v = i := by
  have hlen : i < (mkBins mn s t).length := by rw [mkBins_length]; exact hi
  have hfi : findBinIdx v (mkBins mn s t) = some i := by
    apply findBinIdx_eq_some_of v (mkBins mn s t) i hlen
    · rw [mkBins_get]
      exact ⟨h1, h2⟩
    · intro j hj hji
      rw [mkBins_get]
      rintro ⟨-, hj2⟩
      have hj2' : v < mn + (j : ℚ) * s + s := hj2
      have hcast : ((j : ℚ) + 1) ≤ (i : ℚ) := by exact_mod_cast Nat.succ_le_of_lt hji
      have hmul : ((j : ℚ) + 1) * s ≤ (i : ℚ) * s :=
        mul_le_mul_of_nonneg_right hcast (le_of_lt hs)
      have hexp : ((j : ℚ) + 1) * s = (j : ℚ) * s + s := by ring
      linarith
  unfold binIndexOf
  rw [hfi]

/-- A value at or beyond the last bin's end is assigned to the last bin
(index 9), the fallback branch of the source. -/
theorem binIndexOf_mkBins_of_top (mn s : ℚ) (t : Option ℚ) (hs : 0 < s) (v : ℚ)
    (h : mn + 10 * s ≤ v) : binIndexOf (mkBins mn s t) v = 9 := by
  have hfi : findBinIdx v (mkBins mn s t) = none := by
    apply findBinIdx_eq_none_of
    intro b hb
    unfold mkBins at hb
    rw [List.mem_map] at hb
    obtain ⟨i, hir, rfl⟩ := hb
    rintro ⟨-, hb2⟩
    have hb2' : v < mn + (i : ℚ) * s + s := hb2
    have hcast : ((i : ℚ) + 1) ≤ 10 := by
      have h110 : i + 1 ≤ 10 := by
        have : i < binCount := List.mem_range.mp hir
        simp [binCount] at this
        omega
      exact_mod_cast h110
    have hmul : ((i : ℚ) + 1) * s ≤ 10 * s :=
      mul_le_mul_of_nonneg_right hcast (le_of_lt hs)
    have hexp : ((i : ℚ) + 1) * s = (i : ℚ) * s + s := by ring
    linarith
  unfold binIndexOf
  rw [hfi]
  show (mkBins mn s t).length - 1 = 9
  rw [mkBins_length]

theorem histogramBins_eq (values : List ℚ) (t : Option ℚ) (h : values ≠ []) :
    histogramBins values t =
      fillBins (mkBins (histMin values) (histBinSize values) t)
        (List.insertionSort (· ≤ ·) values) := by
  unfold histogramBins
  rw [if_neg (by simpa using h)]

theorem mkBins_map_count_sum (mn s : ℚ) (t : Option ℚ) :
    ((mkBins mn s t).map Bin.count).sum = 0 := rfl

theorem mkBins_ne_nil (mn s : ℚ) (t : Option ℚ) : mkBins mn s t ≠ [] := by
  intro hc
  have := mkBins_length mn s t
  rw [hc] at this
  simp at this

/-- Dissect one bin of the histogram output: its index is below 10, its
span is the `i`-th span of the freshly built bins, and its count is the
number of input values assigned index `i`. -/
theorem histogramBins_getElem (values : List ℚ) (t : Option ℚ) (h : values ≠ [])
    (i : ℕ) (b : Bin) (hb : (histogramBins values t)[i]? = some b) :
    i < 10 ∧
    b.start = histMin values + (i : ℚ) * histBinSize values ∧
    b.stop = histMin values + (i : ℚ) * histBinSize values + histBinSize values ∧
    b.count = values.countP
      (fun v => binIndexOf (mkBins (histMin values) (histBinSize values) t) v == i) := by
  rw [histogramBins_eq values t h, fillBins_getElem?] at hb
  have hi : i < (mkBins (histMin values) (histBinSize values) t).length := by
    by_contra hc
    rw [List.getElem?_eq_none (by omega)] at hb
    exact Option.noConfusion hb
  have hi10 : i < 10 := by rw [mkBins_length] at hi; exact hi
  rw [mkBins_getElem? _ _ _ i hi10] at hb
  rw [Option.map_some'] at hb
  have hfb := Option.some.inj hb
  refine ⟨hi10, ?_, ?_, ?_⟩
  · rw [← hfb]
  · rw [← hfb]
  · rw [← hfb]
    show 0 + _ = _
    rw [Nat.zero_add]
    exact List.Perm.countP_eq _ (List.perm_insertionSort (· ≤ ·) values)

/-- C3 (amended): on any non-empty series the histogram transform yields
exactly 10 bins whose counts sum to the input length; the count of bin `i`
is the number of values assigned index `i`; a value inside a bin's
half-open span `[start, end)` is assigned to that bin; a value at or
beyond the last bin's end falls back to the last bin; the maximum lands in
the last bin **whenever `min < max`** — but in the degenerate `max = min`
case `binSize` defaults to 1 and every value, the maximum included, is
assigned to the **first** bin. -/
theorem histogram_binning (values : List ℚ) (t : Option ℚ) (h : values ≠ []) :
    (histogramBins values t).length = 10 ∧
    ((histogramBins values t).map Bin.count).sum = values.length ∧
    (∀ i b, (histogramBins values t)[i]? = some b →
      b.count = values.countP
        (fun v => binIndexOf (mkBins (histMin values) (histBinSize values) t) v == i)) ∧
    (∀ i b v, (histogramBins values t)[i]? = some b → b.start ≤ v → v < b.stop →
      binIndexOf (mkBins (histMin values) (histBinSize values) t) v = i) ∧
    (∀ b v, (histogramBins values t)[9]? = some b → b.stop ≤ v →
      binIndexOf (mkBins (histMin values) (histBinSize values) t) v = 9) ∧
    (histMin values < histMax values →
      binIndexOf (mkBins (histMin values) (histBinSize values) t) (histMax values) = 9) ∧
    (histMax values = histMin values →
      ∀ v ∈ values, binIndexOf (mkBins (histMin values) (histBinSize values) t) v = 0) := by
  have hs := histBinSize_pos values h
  refine ⟨histogramBins_length values t h, ?_, ?_, ?_, ?_, ?_, ?_⟩
  · rw [histogramBins_eq values t h,
      fillBins_map_count_sum _ _ (mkBins_ne_nil _ _ _), mkBins_map_count_sum,
      List.length_insertionSort, Nat.zero_add]
  · intro i b hb
    exact (histogramBins_getElem values t h i b hb).2.2.2
  · intro i b v hb h1 h2
    obtain ⟨hi10, hstart, hstop, -⟩ := histogramBins_getElem values t h i b hb
    rw [hstart] at h1
    rw [hstop] at h2
    exact binIndexOf_mkBins_of_mem _ _ t hs v i hi10 h1 h2
  · intro b v hb hstop
    obtain ⟨-, -, hstop9, -⟩ := histogramBins_getElem values t h 9 b hb
    rw [hstop9] at hstop
    apply binIndexOf_mkBins_of_top _ _ t hs v
    have : histMin values + (9 : ℚ) * histBinSize values + histBinSize values =
        histMin values + 10 * histBinSize values := by
      ring
    linarith [this ▸ hstop]
  · intro hlt
    apply binIndexOf_mkBins_of_top _ _ t hs
    rw [histBinSize_top values hlt]
  · intro heq v hv
    have hv1 : histMin values ≤ v := histMin_le values v hv
    have hv2 : v ≤ histMax values := le_histMax values v hv
    have hveq : v = histMin values := le_antisymm (heq ▸ hv2) hv1
    have hone : histBinSize values = 1 := histBinSize_degenerate values heq
    apply binIndexOf_mkBins_of_mem _ _ t hs v 0 (by norm_num)
    · push_cast
      rw [hveq]
      linarith
    · push_cast
      rw [hveq, hone]
      linarith

/-- C3 witness: the amended theorem applied to the concrete series
`[5, 7]`. -/
theorem histogram_binning_witness :
    ([(5 : ℚ), 7] : List ℚ) ≠ [] ∧ (histogramBins [(5 : ℚ), 7] none).length = 10 :=
  ⟨by simp, (histogram_binning [(5 : ℚ), 7] none (by simp)).1⟩

/-- C3 counterexample: on the one-value series `[5]` (where `max = min`,
so `binSize` defaults to 1) the maximum value 5 is counted in the FIRST
bin and the last bin stays empty — refuting "the maximum value always
lands in the last bin". -/
theorem histogram_max_first_bin_cx :
    binCounts (chartData [⟨[("x", JsVal.str "a"), ("y", JsVal.num 5)]⟩]
        ⟨ChartType.histogram, "x", "y", none, none, none⟩) =
      [1, 0, 0, 0, 0, 0, 0, 0, 0, 0] ∧
    histMax [(5 : ℚ)] = 5 := by
  constructor
  · have hchart : chartData [⟨[("x", JsVal.str "a"), ("y", JsVal.num 5)]⟩]
        ⟨ChartType.histogram, "x", "y", none, none, none⟩ =
        (histogramBins [(5 : ℚ)] none).map ChartPoint.bin := by
      unfold chartData
      rw [if_neg (by simp), if_pos rfl]
      rfl
    rw [hchart]
    have hbc : binCounts ((histogramBins [(5 : ℚ)] none).map ChartPoint.bin) =
        (histogramBins [(5 : ℚ)] none).map Bin.count := by
      unfold binCounts
      rw [List.map_map]
      rfl
    rw [hbc]
    have hmin : histMin [(5 : ℚ)] = 5 := rfl
    have hmax5 : histMax [(5 : ℚ)] = 5 := rfl
    have hcond : (histMax [(5 : ℚ)] - histMin [(5 : ℚ)]) / (binCount : ℚ) = 0 := by
      rw [hmin, hmax5]
      norm_num
    have hbs : histBinSize [(5 : ℚ)] = 1 := by
      unfold histBinSize
      rw [if_pos hcond]
    rw [histogramBins_eq [(5 : ℚ)] none (by simp), hmin, hbs]
    have hsort : List.insertionSort (· ≤ ·) [(5 : ℚ)] = [5] := rfl
    rw [hsort]
    have hidx : binIndexOf (mkBins 5 1 none) 5 = 0 := by
      apply binIndexOf_mkBins_of_mem 5 1 none (by norm_num) 5 0 (by norm_num)
      · push_cast
        norm_num
      · push_cast
        norm_num
    have hfill : fillBins (mkBins 5 1 none) [5] =
        incAt (mkBins 5 1 none) (binIndexOf (mkBins 5 1 none) 5) := rfl
    rw [hfill, hidx]
    rfl
  · rfl
